import Mathlib

/-!
# Verification of the CollectTODO scanner/tracker

Shallow embedding of `generate_todo_md.go` (and the configurable-blacklist
variant of the same program): the `TodoItem` data model, the `updateTodos`
reconciliation merge, the `isInBlacklist` inclusion policy, the directory
walk of `scanTodos`, the oversized-file skipping, the `loadTracker`
store-loading control flow, and the line-level `TODO[tag]: description`
marker extraction.  Go machine integers that appear (line numbers, file
sizes) are nonnegative and far from overflow in every behaviour considered
here, so they are embedded as `Nat`.
-/

namespace CollectTODO

/-- Embeds the Go struct `TodoItem` (fields `Tag`, `Description`, `File`,
`Line`, `Date`).  `Line` is the 1-based line number. -/
structure TodoItem where
  Tag : String
  Description : String
  File : String
  Line : Nat
  Date : String
  deriving DecidableEq, Repr

/-- Embeds the Go struct `TodoTracker` (field `Todos`). -/
structure TodoTracker where
  Todos : List TodoItem
  deriving DecidableEq, Repr

/-- The merge key built by `fmt.Sprintf("%s|%s|%s|%d", t.Tag, t.Description,
t.File, t.Line)` in `updateTodos`. -/
def keyOf (t : TodoItem) : String :=
  t.Tag ++ "|" ++ t.Description ++ "|" ++ t.File ++ "|" ++ toString t.Line

/-- Embeds `updateTodos`: build a map from key to item over `old` (a Go map
write for each element in order, so a later duplicate key overwrites an
earlier one), then emit one item per element of `found`, copying the date
from the map on a key hit and stamping `now` on a miss. -/
def updateTodos (old found : List TodoItem) (now : String) : List TodoItem :=
  let oldMap : String → Option TodoItem :=
    old.foldl (fun m t => fun k => if k = keyOf t then some t else m k)
      (fun _ => none)
  found.map fun t =>
    match oldMap (keyOf t) with
    | some oldT => { t with Date := oldT.Date }
    | none => { t with Date := now }

/-- The net content of the Go map after the `for _, t := range old` loop:
the last element of `old` bearing a given key. -/
def oldLookup (old : List TodoItem) (k : String) : Option TodoItem :=
  old.reverse.find? fun t => keyOf t == k

/-- The date the merge assigns for a key: the date of the last old item
with that key, or `now` when no old item has it. -/
def dateFor (old : List TodoItem) (now : String) (k : String) : String :=
  match oldLookup old k with
  | some o => o.Date
  | none => now

theorem foldl_map_apply (old : List TodoItem)
    (m0 : String → Option TodoItem) (k : String) :
    (old.foldl (fun m t => fun k => if k = keyOf t then some t else m k) m0) k
      = match oldLookup old k with
        | some t => some t
        | none => m0 k := by
  induction old generalizing m0 with
  | nil => simp [oldLookup]
  | cons t rest ih =>
    simp only [List.foldl_cons, ih, oldLookup, List.reverse_cons,
      List.find?_append]
    cases h : rest.reverse.find? (fun u => keyOf u == k) with
    | some u => simp [h, Option.orElse]
    | none =>
      simp only [h, Option.orElse, Option.none_orElse, List.find?]
      by_cases hk : keyOf t = k
      · simp [hk]
      · have : (keyOf t == k) = false := by simpa using hk
        have hk2 : ¬ k = keyOf t := fun h => hk h.symm
        simp [this, hk2]

/-- `updateTodos` is the pointwise map assigning each found item the date
determined by its key. -/
theorem updateTodos_eq_map (old found : List TodoItem) (now : String) :
    updateTodos old found now
      = found.map fun t => { t with Date := dateFor old now (keyOf t) } := by
  unfold updateTodos
  refine List.map_congr_left fun t _ => ?_
  rw [foldl_map_apply]
  unfold dateFor
  cases oldLookup old (keyOf t) <;> rfl

@[simp]
theorem keyOf_setDate (t : TodoItem) (d : String) :
    keyOf { t with Date := d } = keyOf t := rfl

theorem oldLookup_mem_key {old : List TodoItem} {k : String} {o : TodoItem}
    (h : oldLookup old k = some o) : o ∈ old ∧ keyOf o = k := by
  refine ⟨?_, ?_⟩
  · have := List.mem_of_find?_eq_some h
    simpa using this
  · have := List.find?_some h
    simpa using this

theorem oldLookup_isSome {old : List TodoItem} {k : String} {t : TodoItem}
    (ht : t ∈ old) (hk : keyOf t = k) : (oldLookup old k).isSome := by
  unfold oldLookup
  rw [List.find?_isSome]
  exact ⟨t, by simpa using ht, by simp [hk]⟩

theorem oldLookup_eq_none {old : List TodoItem} {k : String}
    (h : ∀ o ∈ old, keyOf o ≠ k) : oldLookup old k = none := by
  unfold oldLookup
  rw [List.find?_eq_none]
  intro x hx
  simpa using h x (by simpa using hx)

theorem oldLookup_map_of_key (g : TodoItem → TodoItem)
    (hg : ∀ u, keyOf (g u) = keyOf u) (l : List TodoItem) (k : String) :
    oldLookup (l.map g) k = (oldLookup l k).map g := by
  unfold oldLookup
  rw [← List.map_reverse, List.find?_map]
  have hfun : ((fun u : TodoItem => keyOf u == k) ∘ g)
      = fun u : TodoItem => keyOf u == k := by
    funext u
    simp [Function.comp, hg]
  rw [hfun]

theorem dateFor_updateTodos (old found : List TodoItem) (now : String)
    {t : TodoItem} (ht : t ∈ found) :
    dateFor (updateTodos old found now) now (keyOf t)
      = dateFor old now (keyOf t) := by
  rw [updateTodos_eq_map]
  unfold dateFor
  rw [oldLookup_map_of_key _ (fun u => keyOf_setDate u _) found (keyOf t)]
  cases h : oldLookup found (keyOf t) with
  | none =>
    exfalso
    have hsome := oldLookup_isSome ht rfl
    rw [h] at hsome
    exact absurd hsome (by simp)
  | some u =>
    have hk : keyOf u = keyOf t := (oldLookup_mem_key h).2
    simp [hk]

theorem oldLookup_perm {old₁ old₂ : List TodoItem} (hp : old₁.Perm old₂)
    (hn : (old₁.map keyOf).Nodup) (k : String) :
    oldLookup old₁ k = oldLookup old₂ k := by
  have hpw : old₁.Pairwise fun a b => keyOf a ≠ keyOf b := by
    rw [List.Nodup, List.pairwise_map] at hn
    exact hn
  have hsymm : Symmetric fun a b : TodoItem => keyOf a ≠ keyOf b :=
    fun x y h hk => h hk.symm
  have huniq : ∀ a ∈ old₁, ∀ b ∈ old₁, keyOf a = keyOf b → a = b := by
    intro a ha b hb hk
    by_contra hne
    exact (List.Pairwise.forall hsymm hpw ha hb hne) hk
  cases h₁ : oldLookup old₁ k with
  | some t =>
    obtain ⟨hmem, hkey⟩ := oldLookup_mem_key h₁
    have hs := oldLookup_isSome (hp.mem_iff.mp hmem) hkey
    obtain ⟨u, hu⟩ := Option.isSome_iff_exists.mp hs
    obtain ⟨humem, hukey⟩ := oldLookup_mem_key hu
    have hut : u = t := huniq u (hp.mem_iff.mpr humem) t hmem
      (hukey.trans hkey.symm)
    rw [hu, hut]
  | none =>
    have hnone : ∀ o ∈ old₂, keyOf o ≠ k := by
      intro o ho hk
      have hsome := oldLookup_isSome (hp.mem_iff.mpr ho) hk
      rw [h₁] at hsome
      exact absurd hsome (by simp)
    rw [oldLookup_eq_none hnone]

/-- C1 (amended): `updateTodos` matches items by the separator-joined string
key `tag|description|file|line`; for each found item, if some old item has
the same string key the merged date is copied from a matching old item (the
last such occurrence), otherwise the merged date is the caller-supplied
`now`. -/
theorem c1_merge_dates (old found : List TodoItem) (now : String)
    (i : Nat) (f : TodoItem) (hf : found[i]? = some f) :
    ∃ m, (updateTodos old found now)[i]? = some m ∧
      ((∃ o ∈ old, keyOf o = keyOf f) →
        ∃ o ∈ old, keyOf o = keyOf f ∧ m.Date = o.Date) ∧
      ((∀ o ∈ old, keyOf o ≠ keyOf f) → m.Date = now) := by
  rw [updateTodos_eq_map]
  refine ⟨{ f with Date := dateFor old now (keyOf f) }, ?_, ?_, ?_⟩
  · rw [List.getElem?_map, hf]
    rfl
  · rintro ⟨o, ho, hk⟩
    obtain ⟨o', ho'⟩ := Option.isSome_iff_exists.mp (oldLookup_isSome ho hk)
    obtain ⟨hmem, hkey⟩ := oldLookup_mem_key ho'
    exact ⟨o', hmem, hkey, by simp [dateFor, ho']⟩
  · intro h
    simp [dateFor, oldLookup_eq_none h]

/-- C1 witness: a found item whose key also occurs in the old collection
keeps the old first-seen date. -/
theorem c1_merge_dates_witness :
    ∃ m, (updateTodos [TodoItem.mk "t" "d" "f" 3 "2020-01-01"]
        [TodoItem.mk "t" "d" "f" 3 ""] "2024-01-02")[0]? = some m ∧
      m.Date = "2020-01-01" := by
  obtain ⟨m, hm, h1, _⟩ := c1_merge_dates
    [TodoItem.mk "t" "d" "f" 3 "2020-01-01"]
    [TodoItem.mk "t" "d" "f" 3 ""] "2024-01-02" 0
    (TodoItem.mk "t" "d" "f" 3 "") rfl
  obtain ⟨o, ho, _, hd⟩ := h1 ⟨TodoItem.mk "t" "d" "f" 3 "2020-01-01",
    by simp, rfl⟩
  refine ⟨m, hm, ?_⟩
  rw [hd, List.mem_singleton.mp ho]

/-- C1 counterexample: with tuple-based matching the claim fails, because
the string key conflates distinct tuples when a field contains the
separator character.  The found item's (tag, description, file, line)
tuple matches no old item, yet its merged date is the old date, not
`now`. -/
theorem c1_tuple_counterexample :
    (∀ o ∈ [TodoItem.mk "a" "b|c" "d" 1 "2020-01-01"],
      ¬(o.Tag = "a" ∧ o.Description = "b" ∧ o.File = "c|d" ∧ o.Line = 1)) ∧
    updateTodos [TodoItem.mk "a" "b|c" "d" 1 "2020-01-01"]
        [TodoItem.mk "a" "b" "c|d" 1 ""] "2024-05-05"
      = [TodoItem.mk "a" "b" "c|d" 1 "2020-01-01"] := by
  exact ⟨by decide, by decide⟩

/-- C2: the merged collection has exactly one entry per element of `found`,
and an old item whose (tag, description, file, line) tuple matches no found
item does not appear in the merged collection. -/
theorem c2_merge_size (old found : List TodoItem) (now : String) :
    (updateTodos old found now).length = found.length ∧
    ∀ o ∈ old,
      (∀ f ∈ found, ¬(o.Tag = f.Tag ∧ o.Description = f.Description ∧
          o.File = f.File ∧ o.Line = f.Line)) →
      o ∉ updateTodos old found now := by
  rw [updateTodos_eq_map]
  refine ⟨by simp, ?_⟩
  intro o _ h hmem
  obtain ⟨f, hf, rfl⟩ := List.mem_map.mp hmem
  exact h f hf ⟨rfl, rfl, rfl, rfl⟩

/-- C2 witness: an old item vanishes when the scan no longer finds it. -/
theorem c2_merge_size_witness :
    (updateTodos [TodoItem.mk "t" "d" "f" 1 "2020-01-01"] [] "2024-01-02").length
      = 0 ∧
    TodoItem.mk "t" "d" "f" 1 "2020-01-01" ∉
      updateTodos [TodoItem.mk "t" "d" "f" 1 "2020-01-01"] [] "2024-01-02" := by
  have h := c2_merge_size [TodoItem.mk "t" "d" "f" 1 "2020-01-01"] [] "2024-01-02"
  exact ⟨h.1, h.2 _ (by simp) (by simp)⟩

/-- C3: merging the result of a first merge against the same found
collection with the same `now` reproduces the first merge's result
exactly. -/
theorem c3_merge_idempotent (old found : List TodoItem) (now : String) :
    updateTodos (updateTodos old found now) found now
      = updateTodos old found now := by
  rw [updateTodos_eq_map (updateTodos old found now) found now]
  refine Eq.trans (List.map_congr_left fun t ht => ?_)
    (updateTodos_eq_map old found now).symm
  rw [dateFor_updateTodos old found now ht]

/-- C4 (amended): with keys read as the separator-joined string key, the
merge is invariant under permuting an `old` collection whose string keys
are pairwise distinct, and in general the date carried forward for a key is
the one of the last occurrence of that string key in `old`'s order. -/
theorem c4_old_order :
    (∀ old₁ old₂ found : List TodoItem, ∀ now : String, old₁.Perm old₂ →
      (old₁.map keyOf).Nodup →
      updateTodos old₁ found now = updateTodos old₂ found now) ∧
    (∀ old found : List TodoItem, ∀ now : String, ∀ i : Nat, ∀ f : TodoItem,
      found[i]? = some f →
      ∃ m, (updateTodos old found now)[i]? = some m ∧
        m.Date = dateFor old now (keyOf f)) := by
  constructor
  · intro old₁ old₂ found now hp hn
    rw [updateTodos_eq_map, updateTodos_eq_map]
    refine List.map_congr_left fun t _ => ?_
    have : dateFor old₁ now (keyOf t) = dateFor old₂ now (keyOf t) := by
      unfold dateFor
      rw [oldLookup_perm hp hn]
    rw [this]
  · intro old found now i f hf
    rw [updateTodos_eq_map]
    refine ⟨{ f with Date := dateFor old now (keyOf f) }, ?_, rfl⟩
    rw [List.getElem?_map, hf]
    rfl

/-- C4 witness: permuting a duplicate-free old collection leaves the merge
unchanged, and the carried date is the last occurrence's. -/
theorem c4_old_order_witness :
    updateTodos [TodoItem.mk "a" "x" "f" 1 "2020-01-01",
        TodoItem.mk "b" "y" "g" 2 "2021-01-01"]
      [TodoItem.mk "a" "x" "f" 1 ""] "2025-01-01"
      = updateTodos [TodoItem.mk "b" "y" "g" 2 "2021-01-01",
        TodoItem.mk "a" "x" "f" 1 "2020-01-01"]
      [TodoItem.mk "a" "x" "f" 1 ""] "2025-01-01" ∧
    ∃ m, (updateTodos [TodoItem.mk "a" "x" "f" 1 "2020-01-01"]
        [TodoItem.mk "a" "x" "f" 1 ""] "2025-01-01")[0]? = some m ∧
      m.Date = dateFor [TodoItem.mk "a" "x" "f" 1 "2020-01-01"] "2025-01-01"
        (keyOf (TodoItem.mk "a" "x" "f" 1 "")) := by
  refine ⟨c4_old_order.1 _ _ _ _ (List.Perm.swap _ _ _) (by decide), ?_⟩
  exact c4_old_order.2 _ _ "2025-01-01" 0 (TodoItem.mk "a" "x" "f" 1 "") rfl

/-- C4 counterexample: two old collections that are permutations of each
other with pairwise-distinct (tag, description, file, line) tuples can
still merge differently, because two distinct tuples collide on the joined
string key. -/
theorem c4_perm_counterexample :
    ([TodoItem.mk "a" "b|c" "d" 1 "2020-01-01",
      TodoItem.mk "a" "b" "c|d" 1 "2021-02-02"].Perm
      [TodoItem.mk "a" "b" "c|d" 1 "2021-02-02",
       TodoItem.mk "a" "b|c" "d" 1 "2020-01-01"]) ∧
    ([TodoItem.mk "a" "b|c" "d" 1 "2020-01-01",
      TodoItem.mk "a" "b" "c|d" 1 "2021-02-02"].Pairwise fun x y =>
        ¬(x.Tag = y.Tag ∧ x.Description = y.Description ∧
          x.File = y.File ∧ x.Line = y.Line)) ∧
    updateTodos [TodoItem.mk "a" "b|c" "d" 1 "2020-01-01",
        TodoItem.mk "a" "b" "c|d" 1 "2021-02-02"]
      [TodoItem.mk "a" "b" "c|d" 1 ""] "2025-03-03"
      ≠ updateTodos [TodoItem.mk "a" "b" "c|d" 1 "2021-02-02",
        TodoItem.mk "a" "b|c" "d" 1 "2020-01-01"]
      [TodoItem.mk "a" "b" "c|d" 1 ""] "2025-03-03" := by
  exact ⟨List.Perm.swap _ _ _, by decide, by decide⟩

/-- C10: the merge modifies only the date field — each merged item keeps
the tag, description, file and line of the found item at the same
position, and the merged collection has the same length (hence preserves
found's order). -/
theorem c10_frame_fields (old found : List TodoItem) (now : String) :
    (updateTodos old found now).length = found.length ∧
    ∀ i : Nat, ∀ f : TodoItem, found[i]? = some f →
      ∃ m, (updateTodos old found now)[i]? = some m ∧
        m.Tag = f.Tag ∧ m.Description = f.Description ∧
        m.File = f.File ∧ m.Line = f.Line := by
  rw [updateTodos_eq_map]
  refine ⟨by simp, ?_⟩
  intro i f hf
  refine ⟨{ f with Date := dateFor old now (keyOf f) }, ?_, rfl, rfl, rfl, rfl⟩
  rw [List.getElem?_map, hf]
  rfl

/-- C10 witness: a merged item differs from the found item only in its
date. -/
theorem c10_frame_fields_witness :
    ∃ m, (updateTodos [] [TodoItem.mk "t" "d" "f" 7 ""] "2024-01-02")[0]?
        = some m ∧
      m.Tag = "t" ∧ m.Description = "d" ∧ m.File = "f" ∧ m.Line = 7 := by
  obtain ⟨m, hm, h⟩ := (c10_frame_fields [] [TodoItem.mk "t" "d" "f" 7 ""]
    "2024-01-02").2 0 (TodoItem.mk "t" "d" "f" 7 "") rfl
  exact ⟨m, hm, h⟩

/-- Word characters of the Go regexp class `\w` (ASCII letters, digits and
underscore; Go's `regexp` treats `\w` as ASCII without extra flags). -/
def isWordChar (c : Char) : Bool := c.isAlphanum || c = '_'

/-- Embeds a match attempt of `todoPattern` = `TODO\[(\w+)\]: (.+)` anchored
at the start of `l` (over a line, which contains no newline, so `.` matches
every character).  The greedy `\w+` takes the maximal word-character run;
since `]` is not a word character, no shorter run can be followed by the
literal `]: `, so backtracking never helps and the maximal run is the only
candidate.  The greedy `(.+)` captures the whole remainder of the line. -/
def matchHere : List Char → Option (List Char × List Char)
  | 'T' :: 'O' :: 'D' :: 'O' :: '[' :: rest =>
    if rest.takeWhile isWordChar = [] then none
    else
      match rest.dropWhile isWordChar with
      | ']' :: ':' :: ' ' :: desc =>
        if desc = [] then none else some (rest.takeWhile isWordChar, desc)
      | _ => none
  | _ => none

/-- Embeds `todoPattern.FindStringSubmatch` on one line: the leftmost
position where the pattern matches, if any (RE2 leftmost-match
semantics). -/
def findTodo : List Char → Option (List Char × List Char)
  | [] => none
  | c :: rest =>
    match matchHere (c :: rest) with
    | some r => some r
    | none => findTodo rest

/-- Embeds the per-file scanning loop of `scanTodos`: `lineNum` starts at 1
and one `TodoItem` is appended per line on which the pattern matches, with
`Date` left at the Go zero value `""`. -/
def scanLinesFrom (path : String) : Nat → List String → List TodoItem
  | _, [] => []
  | n, l :: ls =>
    (match findTodo l.toList with
     | some r => [TodoItem.mk r.1.asString r.2.asString path n ""]
     | none => []) ++ scanLinesFrom path (n + 1) ls

/-- The items extracted from one accepted file. -/
def scanFileLines (path : String) (lines : List String) : List TodoItem :=
  scanLinesFrom path 1 lines

/-- The literal characters `TODO[` of the pattern. -/
def todoOpen : List Char := ['T', 'O', 'D', 'O', '[']

/-- The literal characters of the separator `]: ` of the pattern. -/
def todoSep : List Char := [']', ':', ' ']

/-- Spec-side reading of the pattern: the line splits as some text, then
`TODO[`, then a non-empty run of word characters, then `]: `, then a
non-empty remainder. -/
def IsMarkerSplit (l pre tag rest : List Char) : Prop :=
  l = pre ++ (todoOpen ++ (tag ++ (todoSep ++ rest))) ∧ tag ≠ [] ∧
    (∀ c ∈ tag, isWordChar c) ∧ rest ≠ []

/-- Spec-side reading of "the line contains the marker pattern". -/
def HasMarker (l : List Char) : Prop :=
  ∃ pre tag rest, IsMarkerSplit l pre tag rest

theorem takeWhile_run {p : Char → Bool} {xs : List Char} {y : Char}
    (zs : List Char) (hx : ∀ c ∈ xs, p c) (hy : p y = false) :
    (xs ++ y :: zs).takeWhile p = xs ∧ (xs ++ y :: zs).dropWhile p = y :: zs := by
  induction xs with
  | nil => simp [List.takeWhile_cons, List.dropWhile_cons, hy]
  | cons a as ih =>
    have ha : p a = true := hx a (by simp)
    have hrest := ih fun c hc => hx c (by simp [hc])
    simp [List.takeWhile_cons, List.dropWhile_cons, ha, hrest.1, hrest.2]

theorem matchHere_eq_some {l tag desc : List Char} :
    matchHere l = some (tag, desc) ↔
      l = todoOpen ++ tag ++ todoSep ++ desc ∧ tag ≠ [] ∧
        (∀ c ∈ tag, isWordChar c) ∧ desc ≠ [] := by
  constructor
  · intro h
    unfold matchHere at h
    split at h
    case h_2 => exact absurd h (by simp)
    case h_1 rest =>
      split at h
      case isTrue => exact absurd h (by simp)
      case isFalse hne =>
        split at h
        case h_2 => exact absurd h (by simp)
        case h_1 desc' heq =>
          split at h
          case isTrue => exact absurd h (by simp)
          case isFalse hdne =>
            simp only [Option.some.injEq, Prod.mk.injEq] at h
            obtain ⟨h1, h2⟩ := h
            have hsplit := List.takeWhile_append_dropWhile isWordChar rest
            rw [h1, heq, h2] at hsplit
            refine ⟨?_, ?_, ?_, ?_⟩
            · rw [← hsplit]
              simp [todoOpen, todoSep]
            · rw [h1] at hne
              exact hne
            · intro c hc
              rw [← h1] at hc
              exact List.mem_takeWhile_imp hc
            · rw [h2] at hdne
              exact hdne
  · rintro ⟨rfl, hne, hall, hdne⟩
    have hy : isWordChar ']' = false := by decide
    have hrun := takeWhile_run (':' :: ' ' :: desc) hall hy
    simp only [todoOpen, todoSep, List.cons_append, List.append_assoc,
      List.nil_append]
    rw [matchHere, hrun.1, hrun.2, if_neg hne]
    show (if desc = [] then none else some (tag, desc)) = some (tag, desc)
    rw [if_neg hdne]

theorem findTodo_isSome_iff {l : List Char} :
    (findTodo l).isSome ↔ HasMarker l := by
  induction l with
  | nil =>
    simp only [findTodo, Option.isSome_none, Bool.false_eq_true, false_iff]
    rintro ⟨pre, tag, rest, h, -, -, -⟩
    simp [todoOpen] at h
  | cons c rest ih =>
    rw [findTodo]
    cases hm : matchHere (c :: rest) with
    | some r =>
      simp only [Option.isSome_some, true_iff]
      obtain ⟨tag, desc⟩ := r
      obtain ⟨hl, hne, hall, hdne⟩ := matchHere_eq_some.mp hm
      exact ⟨[], tag, desc, by simpa using hl, hne, hall, hdne⟩
    | none =>
      show (findTodo rest).isSome ↔ HasMarker (c :: rest)
      rw [ih]
      constructor
      · rintro ⟨pre, tag, r, h1, h2, h3, h4⟩
        refine ⟨c :: pre, tag, r, ?_, h2, h3, h4⟩
        rw [List.cons_append, ← h1]
      · rintro ⟨pre, tag, r, h1, h2, h3, h4⟩
        cases pre with
        | nil =>
          exfalso
          have hm2 : matchHere (c :: rest) = some (tag, r) :=
            matchHere_eq_some.mpr ⟨by simpa using h1, h2, h3, h4⟩
          rw [hm] at hm2
          exact absurd hm2 (by simp)
        | cons d pre' =>
          rw [List.cons_append] at h1
          injection h1 with _ h1'
          exact ⟨pre', tag, r, h1', h2, h3, h4⟩

theorem findTodo_some_split {l tag desc : List Char}
    (h : findTodo l = some (tag, desc)) :
    ∃ pre, IsMarkerSplit l pre tag desc ∧
      ∀ pre' tag' rest', IsMarkerSplit l pre' tag' rest' →
        pre.length ≤ pre'.length := by
  induction l with
  | nil => simp [findTodo] at h
  | cons c rest ih =>
    rw [findTodo] at h
    cases hm : matchHere (c :: rest) with
    | some r =>
      obtain ⟨tagr, descr⟩ := r
      rw [hm] at h
      simp only [Option.some.injEq, Prod.mk.injEq] at h
      obtain ⟨h1, h2⟩ := h
      subst h1
      subst h2
      obtain ⟨hl, hne, hall, hdne⟩ := matchHere_eq_some.mp hm
      exact ⟨[], ⟨by simpa using hl, hne, hall, hdne⟩,
        fun pre' _ _ _ => Nat.zero_le _⟩
    | none =>
      rw [hm] at h
      obtain ⟨pre, hsp, hmin⟩ := ih h
      obtain ⟨hl, hne, hall, hdne⟩ := hsp
      refine ⟨c :: pre, ⟨?_, hne, hall, hdne⟩, ?_⟩
      · rw [List.cons_append, ← hl]
      · intro pre' tag' rest' hsp'
        obtain ⟨hl', hne', hall', hdne'⟩ := hsp'
        cases pre' with
        | nil =>
          exfalso
          have hm2 : matchHere (c :: rest) = some (tag', rest') :=
            matchHere_eq_some.mpr ⟨by simpa using hl', hne', hall', hdne'⟩
          rw [hm] at hm2
          exact absurd hm2 (by simp)
        | cons d pre'' =>
          rw [List.cons_append] at hl'
          injection hl' with _ h3
          have hle := hmin pre'' tag' rest' ⟨h3, hne', hall', hdne'⟩
          simpa using Nat.succ_le_succ hle

theorem scanLinesFrom_mem {path : String} {k : Nat} {ls : List String}
    {item : TodoItem} :
    item ∈ scanLinesFrom path k ls ↔
      ∃ i l r, ls[i]? = some l ∧ findTodo l.toList = some r ∧
        item = TodoItem.mk r.1.asString r.2.asString path (k + i) "" := by
  induction ls generalizing k with
  | nil => simp [scanLinesFrom]
  | cons l ls ih =>
    rw [scanLinesFrom, List.mem_append]
    constructor
    · rintro (h | h)
      · cases hf : findTodo l.toList with
        | none =>
          rw [hf] at h
          simp at h
        | some r =>
          rw [hf] at h
          simp only [List.mem_singleton] at h
          exact ⟨0, l, r, by simp, hf, by simpa using h⟩
      · obtain ⟨i, l', r, h1, h2, h3⟩ := ih.mp h
        refine ⟨i + 1, l', r, by simpa using h1, h2, ?_⟩
        rw [h3]
        have harith : k + 1 + i = k + (i + 1) := by omega
        rw [harith]
    · rintro ⟨i, l', r, h1, h2, h3⟩
      cases i with
      | zero =>
        simp only [List.getElem?_cons_zero, Option.some.injEq] at h1
        subst h1
        left
        rw [h2]
        simpa using h3
      | succ i =>
        right
        refine ih.mpr ⟨i, l', r, by simpa using h1, h2, ?_⟩
        rw [h3]
        have harith : k + (i + 1) = k + 1 + i := by omega
        rw [harith]

theorem scanLinesFrom_line_ge {path : String} {k : Nat} {ls : List String} :
    ∀ item ∈ scanLinesFrom path k ls, k ≤ item.Line := by
  induction ls generalizing k with
  | nil => simp [scanLinesFrom]
  | cons l ls ih =>
    intro item hmem
    rw [scanLinesFrom, List.mem_append] at hmem
    rcases hmem with h | h
    · cases hf : findTodo l.toList with
      | none =>
        rw [hf] at h
        simp at h
      | some r =>
        rw [hf] at h
        simp only [List.mem_singleton] at h
        simp [h]
    · exact Nat.le_of_succ_le (ih item h)

theorem scanLinesFrom_countP {path : String} {n : Nat} {ls : List String} :
    ∀ k, (scanLinesFrom path k ls).countP (fun it => it.Line == n) ≤ 1 := by
  induction ls with
  | nil =>
    intro k
    simp [scanLinesFrom]
  | cons l ls ih =>
    intro k
    rw [scanLinesFrom, List.countP_append]
    by_cases hkn : k = n
    · have h2 : (scanLinesFrom path (k + 1) ls).countP
          (fun it => it.Line == n) = 0 := by
        rw [List.countP_eq_zero]
        intro it hit
        have hge := scanLinesFrom_line_ge it hit
        simp only [beq_iff_eq]
        omega
      rw [h2]
      have h1 : (match findTodo l.toList with
          | some r => [TodoItem.mk r.1.asString r.2.asString path k ""]
          | none => ([] : List TodoItem)).countP (fun it : TodoItem => it.Line == n)
            ≤ 1 := by
        cases findTodo l.toList with
        | none => simp
        | some r => simpa using List.countP_le_length _
      omega
    · have h1 : (match findTodo l.toList with
          | some r => [TodoItem.mk r.1.asString r.2.asString path k ""]
          | none => ([] : List TodoItem)).countP (fun it : TodoItem => it.Line == n)
            = 0 := by
        cases findTodo l.toList with
        | none => simp
        | some r =>
          rw [List.countP_eq_zero]
          intro it hit
          simp only [List.mem_singleton] at hit
          simp [hit, hkn]
      rw [h1]
      simpa using ih k.succ

/-- C9: an item is extracted from a line of an accepted file iff the line
contains literal `TODO[`, then one or more word characters (the tag), then
literal `]: `, then a non-empty remainder; at most one item is emitted per
line (the leftmost match), the description is captured verbatim as the
remainder of the line after the leftmost match's `]: ` with no trimming,
and the emitted item's date field is left unset (the Go zero value). -/
theorem c9_marker_extraction (path : String) (lines : List String) :
    (∀ l ∈ lines, ((findTodo l.toList).isSome ↔ HasMarker l.toList)) ∧
    (∀ i : Nat, ∀ l : String, lines[i]? = some l →
      ((∃ item ∈ scanFileLines path lines, item.Line = i + 1) ↔
        HasMarker l.toList)) ∧
    (∀ n : Nat, (scanFileLines path lines).countP
      (fun it : TodoItem => it.Line == n) ≤ 1) ∧
    (∀ item ∈ scanFileLines path lines, item.Date = "" ∧ item.File = path ∧
      ∃ l pre, lines[item.Line - 1]? = some l ∧
        IsMarkerSplit l.toList pre item.Tag.toList item.Description.toList ∧
        ∀ pre' tag' rest', IsMarkerSplit l.toList pre' tag' rest' →
          pre.length ≤ pre'.length) := by
  refine ⟨fun l _ => findTodo_isSome_iff, ?_, ?_, ?_⟩
  · intro i l hl
    constructor
    · rintro ⟨item, hmem, hline⟩
      obtain ⟨j, l', r, h1, h2, h3⟩ := scanLinesFrom_mem.mp hmem
      have hij : j = i := by
        rw [h3] at hline
        simp only at hline
        omega
      subst hij
      rw [hl] at h1
      injection h1 with h1
      subst h1
      have hs : (findTodo l.toList).isSome := by
        rw [h2]
        rfl
      exact findTodo_isSome_iff.mp hs
    · intro hmk
      have hsome := findTodo_isSome_iff.mpr hmk
      obtain ⟨r, hr⟩ := Option.isSome_iff_exists.mp hsome
      refine ⟨TodoItem.mk r.1.asString r.2.asString path (1 + i) "",
        scanLinesFrom_mem.mpr ⟨i, l, r, hl, hr, rfl⟩, Nat.add_comm 1 i⟩
  · intro n
    exact scanLinesFrom_countP 1
  · intro item hmem
    obtain ⟨i, l, r, h1, h2, h3⟩ := scanLinesFrom_mem.mp hmem
    obtain ⟨pre, hsp, hmin⟩ := findTodo_some_split h2
    refine ⟨by rw [h3], by rw [h3], l, pre, ?_, ?_, hmin⟩
    · have hline : item.Line - 1 = i := by
        rw [h3]
        simp
      rw [hline, h1]
    · have htag : item.Tag.toList = r.1 := by
        rw [h3]
        exact List.toList_asString r.1
      have hdesc : item.Description.toList = r.2 := by
        rw [h3]
        exact List.toList_asString r.2
      rw [htag, hdesc]
      exact hsp

/-- C9 witness: the line `TODO[a]: b` produces a marker split. -/
theorem c9_marker_extraction_witness : HasMarker (String.toList "TODO[a]: b") :=
  ((c9_marker_extraction "f.go" ["TODO[a]: b"]).1 "TODO[a]: b"
    (by simp)).mp (by decide)

/-- ASCII lowering of a string, embedding `strings.ToLower` (the paths and
deny-list entries considered here are ASCII, where the two agree). -/
def lowerStr (s : String) : String := (s.toList.map Char.toLower).asString

/-- Embeds `filepath.Base`: empty path gives `.`; trailing separators are
removed; a path of only separators gives `/`; otherwise the last
element. -/
def goBase (path : String) : String :=
  if path = "" then "."
  else
    let rev := path.toList.reverse.dropWhile fun c => c = '/'
    if rev = [] then "/"
    else ((rev.takeWhile fun c => c ≠ '/').reverse).asString

/-- Embeds `filepath.Ext`: the suffix of the final slash-separated element
starting at its last dot, or empty when that element has no dot. -/
def goExt (path : String) : String :=
  let seg := path.toList.reverse.takeWhile fun c => c ≠ '/'
  if seg.contains '.' then
    (((seg.takeWhile fun c => c ≠ '.') ++ ['.']).reverse).asString
  else ""

/-- Embeds `strings.HasPrefix` (a byte prefix; on whole valid UTF-8
strings this is the character-list prefix). -/
def goStartsWith (s pre : String) : Bool := pre.toList.isPrefixOf s.toList

/-- A Go `map[string]bool` as an association list with pairwise-distinct
keys; indexing a missing key yields the zero value `false`. -/
def lookupVal (bl : List (String × Bool)) (k : String) : Bool :=
  match bl.find? fun q => q.1 == k with
  | some q => q.2
  | none => false

/-- Embeds `isInBlacklist`: the lowercased base name, the lowercased
extension and the path itself are looked up, and then the `for ignore :=
range blacklist` loop tests every KEY of the map as a path prefix,
regardless of the Boolean value stored under it. -/
def isInBlacklist (path : String) (bl : List (String × Bool)) : Bool :=
  lookupVal bl (lowerStr (goBase path)) ||
  lookupVal bl (lowerStr (goExt path)) ||
  lookupVal bl path ||
  bl.any fun q => !(q.1 == "") && goStartsWith path q.1

/-- The deny-list the program starts from (`var blacklist = ...`). -/
def defaultBlacklist : List (String × Bool) := [(".action-tmp", true)]

/-- A Go map write `m[k] = v`: overwrite the binding when the key is
present, append it otherwise. -/
def setEntry (bl : List (String × Bool)) (k : String) (v : Bool) :
    List (String × Bool) :=
  if bl.any fun q => q.1 == k then
    bl.map fun q => if q.1 == k then (q.1, v) else q
  else bl ++ [(k, v)]

/-- Embeds `strings.TrimSpace` at the ASCII level. -/
def trimSpace (s : String) : String :=
  (((s.toList.dropWhile Char.isWhitespace).reverse.dropWhile
    Char.isWhitespace).reverse).asString

/-- Embeds one of `main`'s flag loops: each (already comma-split) token is
trimmed and, when non-empty, written into the map with value `v` (`true`
for `-blacklist` entries, `false` for `-whitelist` entries). -/
def applyEntries (bl : List (String × Bool)) (args : List String) (v : Bool) :
    List (String × Bool) :=
  args.foldl (fun m a =>
    if trimSpace a = "" then m else setEntry m (trimSpace a) v) bl

/-- The deny-list `main` passes to `scanTodos`: the default list, then the
`-blacklist` tokens set to `true`, then the `-whitelist` tokens set to
`false`. -/
def configure (blacklistArgs whitelistArgs : List String) :
    List (String × Bool) :=
  applyEntries (applyEntries defaultBlacklist blacklistArgs true)
    whitelistArgs false

/-- The 500 KiB size threshold (`maxFileSize`). -/
def maxFileSize : Nat := 500 * 1024

/-- A file tree as the walk sees it: each file carries its size in bytes
and its content as a list of lines. -/
inductive FsEntry where
  | file (name : String) (size : Nat) (lines : List String)
  | dir (name : String) (children : List FsEntry)

/-- The entry's own name. -/
def FsEntry.nameOf : FsEntry → String
  | .file n _ _ => n
  | .dir n _ => n

mutual
/-- Embeds the `filepath.WalkDir` callback of the blacklist variant of
`scanTodos` at one entry whose walk path is `p`: a blacklisted directory
returns `filepath.SkipDir` (its subtree is never visited) and a
blacklisted file is skipped; an accepted file larger than the threshold is
recorded in the skipped report instead of being opened; otherwise the file
is scanned line by line.  Children of a directory are visited with paths
`p/name`. -/
def scanEntry (bl : List (String × Bool)) (p : String) :
    FsEntry → List TodoItem × List String
  | .file _ size lines =>
    if isInBlacklist p bl then ([], [])
    else if maxFileSize < size then ([], [p])
    else (scanFileLines p lines, [])
  | .dir _ children =>
    if isInBlacklist p bl then ([], [])
    else scanChildren bl p children

/-- The walk over a directory's children, concatenating collected items
and skipped paths in visit order. -/
def scanChildren (bl : List (String × Bool)) (p : String) :
    List FsEntry → List TodoItem × List String
  | [] => ([], [])
  | c :: cs =>
    let r := scanEntry bl (p ++ "/" ++ c.nameOf) c
    let rs := scanChildren bl p cs
    (r.1 ++ rs.1, r.2 ++ rs.2)
end

/-- Embeds `scanTodos root blacklist` on a tree rooted at `root`: the
returned pair is (collected todos, skipped oversized files). -/
def scanTodos (root : String) (bl : List (String × Bool)) (tree : FsEntry) :
    List TodoItem × List String :=
  scanEntry bl root tree

mutual
/-- The files the walk actually reaches (with their walk paths, sizes and
lines): those with no blacklisted ancestor directory and which are not
themselves blacklisted. -/
def visitedFiles (bl : List (String × Bool)) (p : String) :
    FsEntry → List (String × Nat × List String)
  | .file _ size lines => if isInBlacklist p bl then [] else [(p, size, lines)]
  | .dir _ children =>
    if isInBlacklist p bl then [] else visitedList bl p children

/-- The visited files of a list of children. -/
def visitedList (bl : List (String × Bool)) (p : String) :
    List FsEntry → List (String × Nat × List String)
  | [] => []
  | c :: cs => visitedFiles bl (p ++ "/" ++ c.nameOf) c ++ visitedList bl p cs
end

/-- What one visited file contributes to (todos, skipped). -/
def fileOut (v : String × Nat × List String) : List TodoItem × List String :=
  if maxFileSize < v.2.1 then ([], [v.1]) else (scanFileLines v.1 v.2.2, [])

mutual
theorem scanEntry_char (bl : List (String × Bool)) (p : String)
    (e : FsEntry) :
    scanEntry bl p e
      = ((visitedFiles bl p e).flatMap fun v => (fileOut v).1,
         (visitedFiles bl p e).flatMap fun v => (fileOut v).2) := by
  cases e with
  | file n size lines =>
    by_cases hb : isInBlacklist p bl
    · simp [scanEntry, visitedFiles, hb]
    · by_cases hs : maxFileSize < size
      · simp [scanEntry, visitedFiles, fileOut, hb, hs]
      · simp [scanEntry, visitedFiles, fileOut, hb, hs]
  | dir n children =>
    by_cases hb : isInBlacklist p bl
    · simp [scanEntry, visitedFiles, hb]
    · simp only [scanEntry, visitedFiles, hb, Bool.false_eq_true,
        if_false, ite_false]
      exact scanChildren_char bl p children

theorem scanChildren_char (bl : List (String × Bool)) (p : String)
    (cs : List FsEntry) :
    scanChildren bl p cs
      = ((visitedList bl p cs).flatMap fun v => (fileOut v).1,
         (visitedList bl p cs).flatMap fun v => (fileOut v).2) := by
  cases cs with
  | nil => simp [scanChildren, visitedList]
  | cons c cs =>
    rw [scanChildren, scanEntry_char bl (p ++ "/" ++ c.nameOf) c,
      scanChildren_char bl p cs]
    simp [visitedList, List.flatMap_append]
end

theorem visited_unique {V : List (String × Nat × List String)}
    (hnd : (V.map fun v => v.1).Nodup) :
    ∀ v ∈ V, ∀ w ∈ V, v.1 = w.1 → v = w := by
  have hpw : V.Pairwise fun a b => a.1 ≠ b.1 := by
    rw [List.Nodup, List.pairwise_map] at hnd
    exact hnd
  have hsymm : Symmetric fun a b : String × Nat × List String => a.1 ≠ b.1 :=
    fun x y h hk => h hk.symm
  intro v hvV w hwV heq
  by_contra hne
  exact (List.Pairwise.forall hsymm hpw hvV hwV hne) heq

theorem scanFileLines_file {q : String} {ls : List String} :
    ∀ item ∈ scanFileLines q ls, item.File = q := by
  intro item hmem
  obtain ⟨i, l, r, -, -, h3⟩ := scanLinesFrom_mem.mp hmem
  rw [h3]

theorem mem_todos_flatMap {V : List (String × Nat × List String)}
    {item : TodoItem} :
    (item ∈ V.flatMap fun v => (fileOut v).1) ↔
      ∃ v ∈ V, ¬ maxFileSize < v.2.1 ∧ item ∈ scanFileLines v.1 v.2.2 := by
  rw [List.mem_flatMap]
  constructor
  · rintro ⟨v, hvV, hin⟩
    by_cases hb : maxFileSize < v.2.1
    · rw [fileOut, if_pos hb] at hin
      simp at hin
    · rw [fileOut, if_neg hb] at hin
      exact ⟨v, hvV, hb, hin⟩
  · rintro ⟨v, hvV, hb, hin⟩
    refine ⟨v, hvV, ?_⟩
    rw [fileOut, if_neg hb]
    exact hin

theorem mem_skipped_flatMap {V : List (String × Nat × List String)}
    {q : String} :
    (q ∈ V.flatMap fun v => (fileOut v).2) ↔
      ∃ v ∈ V, maxFileSize < v.2.1 ∧ q = v.1 := by
  rw [List.mem_flatMap]
  constructor
  · rintro ⟨v, hvV, hin⟩
    by_cases hb : maxFileSize < v.2.1
    · rw [fileOut, if_pos hb] at hin
      simp only [List.mem_singleton] at hin
      exact ⟨v, hvV, hb, hin⟩
    · rw [fileOut, if_neg hb] at hin
      simp at hin
  · rintro ⟨v, hvV, hb, rfl⟩
    refine ⟨v, hvV, ?_⟩
    rw [fileOut, if_pos hb]
    simp

theorem count_skipped {V : List (String × Nat × List String)} {p : String}
    {size : Nat} {lines : List String}
    (hv : (p, size, lines) ∈ V)
    (hnd : (V.map fun v => v.1).Nodup)
    (hbig : maxFileSize < size) :
    (V.flatMap fun v => (fileOut v).2).count p = 1 := by
  induction V with
  | nil => simp at hv
  | cons w ws ih =>
    rw [List.flatMap_cons, List.count_append]
    have hnd' : (ws.map fun v => v.1).Nodup := by
      rw [List.map_cons] at hnd
      exact hnd.of_cons
    have hhead : w.1 ∉ ws.map fun v => v.1 := by
      rw [List.map_cons] at hnd
      exact (List.nodup_cons.mp hnd).1
    rcases List.mem_cons.mp hv with heq | hmem
    · have htail : ((ws.flatMap fun v => (fileOut v).2).count p) = 0 := by
        rw [List.count_eq_zero]
        intro hp
        obtain ⟨v, hvws, -, rfl⟩ := mem_skipped_flatMap.mp hp
        exact hhead (by
          rw [← heq]
          exact List.mem_map_of_mem (fun v => v.1) hvws)
      rw [htail, ← heq]
      have : fileOut (p, size, lines) = ([], [p]) := by
        rw [fileOut, if_pos hbig]
      rw [this]
      simp
    · have hwp : w.1 ≠ p := by
        intro hc
        exact hhead (hc ▸ List.mem_map_of_mem (fun v => v.1) hmem)
      have hhead0 : ((fileOut w).2).count p = 0 := by
        rw [List.count_eq_zero]
        intro hp
        by_cases hb : maxFileSize < w.2.1
        · rw [fileOut, if_pos hb] at hp
          simp only [List.mem_singleton] at hp
          exact hwp hp.symm
        · rw [fileOut, if_neg hb] at hp
          simp at hp
      rw [hhead0, ih hmem hnd']

/-- C7: an accepted (visited) file whose size exceeds the 500 KiB
threshold contributes no extracted item and appears exactly once in the
skipped-files report, while an accepted file of size at most the threshold
is not reported as skipped and all items extracted from its lines appear
in the result. -/
theorem c7_oversized_skip (root : String) (bl : List (String × Bool))
    (tree : FsEntry) (p : String) (size : Nat) (lines : List String)
    (hv : (p, size, lines) ∈ visitedFiles bl root tree)
    (hnd : ((visitedFiles bl root tree).map fun v => v.1).Nodup) :
    (maxFileSize < size →
      (scanTodos root bl tree).2.count p = 1 ∧
      ∀ item ∈ (scanTodos root bl tree).1, item.File ≠ p) ∧
    (size ≤ maxFileSize →
      p ∉ (scanTodos root bl tree).2 ∧
      ∀ item ∈ scanFileLines p lines, item ∈ (scanTodos root bl tree).1) := by
  unfold scanTodos
  rw [scanEntry_char]
  have huniq := visited_unique hnd
  constructor
  · intro hbig
    refine ⟨count_skipped hv hnd hbig, ?_⟩
    intro item hmem hfile
    obtain ⟨v, hvV, hsmall, hin⟩ := mem_todos_flatMap.mp hmem
    have hvp : v.1 = p := by
      rw [← hfile]
      exact (scanFileLines_file item hin).symm
    have hveq : v = (p, size, lines) := huniq v hvV (p, size, lines) hv hvp
    rw [hveq] at hsmall
    exact hsmall hbig
  · intro hsmall
    constructor
    · intro hp
      obtain ⟨v, hvV, hbigv, rfl⟩ := mem_skipped_flatMap.mp hp
      have hveq : v = (v.1, size, lines) := huniq v hvV (v.1, size, lines) hv rfl
      have : maxFileSize < size := by
        rw [hveq] at hbigv
        exact hbigv
      omega
    · intro item hin
      exact mem_todos_flatMap.mpr ⟨(p, size, lines), hv, Nat.not_lt.mpr hsmall, hin⟩

/-- C7 witness: a 512001-byte visited file is reported exactly once as
skipped. -/
theorem c7_oversized_skip_witness :
    (scanTodos "root" [] (FsEntry.dir "root"
      [FsEntry.file "big.go" 512001 [], FsEntry.file "small.go" 10 []])).2.count
        "root/big.go" = 1 := by
  have h := c7_oversized_skip "root" [] (FsEntry.dir "root"
    [FsEntry.file "big.go" 512001 [], FsEntry.file "small.go" 10 []])
    "root/big.go" 512001 [] (by decide) (by decide)
  exact (h.1 (by decide)).1

/-- C6 (amended): any deny-list match at a path prunes that whole entry:
a matching directory's entire subtree is skipped and a matching file is
skipped, and in particular a nonempty entry that is a string prefix of the
path forces the match; but the pruning is NOT specific to prefix-style
entries — a bare-name or extension entry matching a directory also skips
the whole subtree (see the counterexample). -/
theorem c6_deny_prune (bl : List (String × Bool)) (p : String) (e : FsEntry) :
    (isInBlacklist p bl = true → scanEntry bl p e = ([], [])) ∧
    ((∃ q ∈ bl, q.1 ≠ "" ∧ goStartsWith p q.1 = true) →
      scanEntry bl p e = ([], [])) := by
  have himp : isInBlacklist p bl = true → scanEntry bl p e = ([], []) := by
    intro h
    cases e with
    | file n size lines => simp [scanEntry, h]
    | dir n children => simp [scanEntry, h]
  refine ⟨himp, fun hex => himp ?_⟩
  obtain ⟨q, hq, hne, hpre⟩ := hex
  unfold isInBlacklist
  have hany : (bl.any fun q => !(q.1 == "") && goStartsWith p q.1) = true := by
    rw [List.any_eq_true]
    refine ⟨q, hq, ?_⟩
    simp [hne, hpre]
  simp [hany]

/-- C6 witness: the prefix entry `tmp` prunes the directory `tmp/cache`
and its whole subtree. -/
theorem c6_deny_prune_witness :
    scanEntry [("tmp", true)] "tmp/cache"
      (FsEntry.dir "cache" [FsEntry.file "x.go" 1 ["TODO[a]: b"]])
      = ([], []) :=
  (c6_deny_prune [("tmp", true)] "tmp/cache"
    (FsEntry.dir "cache" [FsEntry.file "x.go" 1 ["TODO[a]: b"]])).2
    ⟨("tmp", true), by simp, by decide, by decide⟩

/-- C6 counterexample: the bare-name entry `node_modules` matches the
directory `proj/node_modules` by base name (not as a path prefix), yet the
whole subtree is skipped: the descendant `proj/node_modules/x.go` is not
individually deny-listed and its line would yield an item, but the walk
returns nothing. -/
theorem c6_name_entry_counterexample :
    isInBlacklist "proj/node_modules" [("node_modules", true)] = true ∧
    goStartsWith "proj/node_modules" "node_modules" = false ∧
    isInBlacklist "proj/node_modules/x.go" [("node_modules", true)] = false ∧
    scanFileLines "proj/node_modules/x.go" ["TODO[a]: b"]
      = [TodoItem.mk "a" "b" "proj/node_modules/x.go" 1 ""] ∧
    scanTodos "proj" [("node_modules", true)]
      (FsEntry.dir "proj" [FsEntry.dir "node_modules"
        [FsEntry.file "x.go" 1 ["TODO[a]: b"]]]) = ([], []) := by
  exact ⟨by decide, by decide, by decide, by decide, by decide⟩

/-- C5: whitelisting does not remove an entry from the effective deny-list
and is not a no-op on never-denied names.  With `-whitelist .action-tmp`
(the default deny entry) the path `.action-tmp/main.go` is still denied,
because the prefix loop of `isInBlacklist` ranges over the map's keys and
ignores the stored `false`; had the entry never been in the deny-list the
path would be scanned.  Whitelisting the never-denied name `vendor` newly
denies `vendor/a.go`, which the untouched default deny-list accepts. -/
theorem c5_whitelist_noop_bug :
    isInBlacklist ".action-tmp/main.go" (configure [] [".action-tmp"]) = true ∧
    isInBlacklist ".action-tmp/main.go" [] = false ∧
    isInBlacklist "vendor/a.go" (configure [] ["vendor"]) = true ∧
    isInBlacklist "vendor/a.go" defaultBlacklist = false := by
  exact ⟨by decide, by decide, by decide, by decide⟩

/-- Result of `os.Open` on the store path, as `loadTracker` observes it:
the file is absent (`os.IsNotExist`), the open failed for another reason,
or the file opened with some content. -/
inductive OpenResult where
  | missing
  | failed
  | opened (content : String)

/-- The observable effect of `dec.Decode(&tracker)` on the zero-valued
local `tracker`: `ok ts` is a nil-error return with the variable holding
`ts`; `err ts` is a non-nil-error return with the variable left holding
`ts`.  `encoding/json`'s `Decoder.Decode` buffers and syntax-checks the
next value before unmarshaling, so for syntactically invalid content the
error case carries `[]` (the variable untouched); for syntactically valid
content of the wrong shape it records an `UnmarshalTypeError` for the
offending field but still completes the unmarshaling of the remaining
fields, so the error case can carry a non-empty, partially populated
list. -/
inductive DecodeEffect where
  | ok (todos : List TodoItem)
  | err (todos : List TodoItem)

/-- Embeds `loadTracker`'s control flow over the decoder effect.  An
`os.IsNotExist` open failure yields the zero tracker and nil error; any
other open failure returns the zero tracker together with the error (the
Boolean second component models whether a non-nil error is returned).  On
a decode error the function discards the error and returns the
decoder-mutated `tracker` variable with a nil error (`return tracker, nil
// fallback to empty`) — NOT a freshly zeroed tracker. -/
def loadTracker (dec : String → DecodeEffect) :
    OpenResult → TodoTracker × Bool
  | .missing => (⟨[]⟩, false)
  | .failed => (⟨[]⟩, true)
  | .opened c =>
    match dec c with
    | .ok ts => (⟨ts⟩, false)
    | .err ts => (⟨ts⟩, false)

/-- C8: an absent store file yields the empty tracker without error, and
content rejected by `Decode`'s upfront syntax scan (e.g. `not json`) also
yields the empty tracker without error; but on the shape-invalid store
content `\x7b"todos":[\x7b"tag":123,"description":"x","file":"y",
"line":5,"date":"z"\x7d]\x7d` — syntactically valid JSON whose `tag` is a
number — `Decode` reports a type error only after filling the remaining
fields, and `loadTracker` returns that non-empty partially populated
tracker with nil error, contradicting both the claim and the code's own
`fallback to empty` comment. -/
theorem c8_decode_fallback_bug :
    loadTracker (fun _ => DecodeEffect.err []) OpenResult.missing
      = (⟨[]⟩, false) ∧
    loadTracker (fun _ => DecodeEffect.err []) (OpenResult.opened "not json")
      = (⟨[]⟩, false) ∧
    loadTracker (fun _ => DecodeEffect.err [TodoItem.mk "" "x" "y" 5 "z"])
      (OpenResult.opened
        "\x7b\"todos\":[\x7b\"tag\":123,\"description\":\"x\",\"file\":\"y\",\"line\":5,\"date\":\"z\"\x7d]\x7d")
      = (⟨[TodoItem.mk "" "x" "y" 5 "z"]⟩, false) ∧
    (⟨[TodoItem.mk "" "x" "y" 5 "z"]⟩ : TodoTracker) ≠ ⟨[]⟩ := by
  exact ⟨rfl, rfl, rfl, by decide⟩

end CollectTODO
